import Mathlib

set_option linter.unusedSectionVars false

/-!
Shallow embedding of aerokit's nozzle module (src/aerokit/instance/nozzle.py)
and of the interface it consumes from the external gas-relation library.

The nozzle module calls functions of aerokit.aero.Isentropic (Is), MassFlow (mf)
and ShockWave (sw), and of numpy; those modules are not part of the sources, so
they are modelled as an explicit record of pure functions (GasLib below), as the
specification prescribes in its external-interface section.  Every call in the
Python source either passes gamma=self.gamma explicitly or omits the gamma
keyword; an omitted keyword resolves to the ambient default-gas gamma
(aerokit.common.defaultgas._gamma), which is threaded through the embedding as
an explicit parameter g.
-/

/-- Modelled from the spec: interface of the external gas-relation library
(aerokit.aero.Isentropic, aerokit.aero.MassFlow, aerokit.aero.ShockWave) and
of the numpy numeric primitives sqrt and power, which are absent from the
sources.  The spec describes them as a pure numeric function contract:
isentropic total/static ratio and its inverse, the two branches of the
area-Mach (Sigma) relation, and the normal-shock relations.  Each function
takes the value of gamma used for the call as its last argument. -/
structure GasLib (α : Type) where
  PtPs_Mach : α → α → α
  Mach_PtPs : α → α → α
  Sigma_Mach : α → α → α
  MachSub_Sigma : α → α → α
  MachSup_Sigma : α → α → α
  downstream_Mn : α → α → α
  Pi_ratio : α → α → α
  Mn_Pi_ratio : α → α → α
  downstreamMach_Mach_ShockPsratio : α → α → α → α
  sqrt : α → α
  rpow : α → α → α

variable {α : Type} [LinearOrderedField α]

/-- Minimum of a list (np.min); 0 on the empty list, which the source never
feeds it. -/
def listMin : List α → α
  | [] => 0
  | x :: xs => xs.foldl min x

/-- Index of the first occurrence of the minimum value (np.argmin); 0 on the
empty list. -/
def argmin (l : List α) : ℕ := l.indexOf (listMin l)

/-- Map with the element index, starting the count at k (models elementwise
numpy operations that depend on the position, such as slice assignments). -/
def mapi {β : Type} (f : ℕ → α → β) : ℕ → List α → List β
  | _, [] => []
  | k, x :: xs => f k x :: mapi f (k + 1) xs

/-- Embedding of _NPR_Ms_list (nozzle.py lines 58-81).  All the calls it makes
omit the gamma keyword, so every one receives the ambient gamma g.  Returns
(NPR0, NPRsw, NPR1, Msub, Msh, Msup). -/
def _NPR_Ms_list (lib : GasLib α) (AsAc g : α) : α × α × α × α × α × α :=
  let Msub := lib.MachSub_Sigma AsAc g
  let NPR0 := lib.PtPs_Mach Msub g
  let Msup := lib.MachSup_Sigma AsAc g
  let Msh := lib.downstream_Mn Msup g
  let NPRsw := lib.PtPs_Mach Msh g / lib.Pi_ratio Msup g
  let NPR1 := lib.PtPs_Mach Msup g
  (NPR0, NPRsw, NPR1, Msub, Msh, Msup)

/-- Embedding of Ms_from_AsAc_NPR (nozzle.py lines 83-110); g is the ambient
gamma (defg._gamma), used both by the omitted-keyword calls and in the
closed-form branch. -/
def Ms_from_AsAc_NPR (lib : GasLib α) (AsAc NPR g : α) : α :=
  let r := _NPR_Ms_list lib AsAc g
  let NPR0 := r.1
  let NPRsw := r.2.1
  let Msup := r.2.2.2.2.2
  if NPR < NPR0 then lib.Mach_PtPs NPR g
  else if NPR > NPRsw then Msup
  else
    let gmu := g - 1
    let K := NPR / AsAc / lib.rpow ((g + 1) / 2) ((g + 1) / 2 / gmu)
    lib.sqrt ((lib.sqrt (1 + 2 * gmu * K * K) - 1) / gmu)

/-- Embedding of Madapt_from_AsAc_NPR (nozzle.py lines 112-142). -/
def Madapt_from_AsAc_NPR (lib : GasLib α) (AsAc NPR g : α) : α :=
  let r := _NPR_Ms_list lib AsAc g
  let NPR0 := r.1
  let NPRsw := r.2.1
  let NPR1 := r.2.2.1
  let Msup := r.2.2.2.2.2
  if NPR < NPR0 then lib.Mach_PtPs NPR g
  else if NPR > NPR1 then lib.Mach_PtPs NPR g
  else if NPR > NPRsw then lib.downstreamMach_Mach_ShockPsratio Msup (NPR1 / NPR) g
  else
    let gmu := g - 1
    let K := NPR / AsAc / lib.rpow ((g + 1) / 2) ((g + 1) / 2 / gmu)
    lib.sqrt ((lib.sqrt (1 + 2 * gmu * K * K) - 1) / gmu)

/-- State of a nozzle object (class nozzle, nozzle.py lines 144-209).  The
_M, _Ps, _Pt attributes do not exist until set_NPR has run; this is modelled
with Option (none = attribute absent, accessing it raises AttributeError). -/
structure nozzle (α : Type) where
  gamma : α
  AsoAc : α
  AxoAc : List α
  ithroat : ℕ
  NPR0 : α
  NPRsw : α
  NPR1 : α
  Msub : α
  Msh : α
  Msup : α
  _M : Option (List α)
  _Ps : Option (List α)
  _Pt : Option (List α)

/-- Embedding of nozzle.set_NPR (nozzle.py lines 175-199).  g is the ambient
gamma at call time; the calls that omit the gamma keyword (Sigma_Mach on line
184, everything on lines 192-197, and PtPs_Mach on line 199) receive g, the
others receive the stored self.gamma. -/
def nozzle.set_NPR (lib : GasLib α) (n : nozzle α) (NPR g : α) : nozzle α :=
  let Pt0 : List α := n.AxoAc.map fun _ => 1
  if NPR < n.NPR0 then
    let Ms0 := lib.Mach_PtPs NPR n.gamma
    let M := n.AxoAc.map fun a => lib.MachSub_Sigma (a / n.AsoAc * lib.Sigma_Mach Ms0 g) n.gamma
    let Ps := List.zipWith (fun p m => p / lib.PtPs_Mach m n.gamma) Pt0 M
    { n with _M := some M, _Ps := some Ps, _Pt := some Pt0 }
  else
    let Mc := mapi (fun i a => if i ≤ n.ithroat then lib.MachSub_Sigma a n.gamma
                               else lib.MachSup_Sigma a n.gamma) 0 n.AxoAc
    if NPR < n.NPRsw then
      let Ms := Ms_from_AsAc_NPR lib n.AsoAc NPR g
      let Ptloss := lib.PtPs_Mach Ms g / NPR
      let Msh := lib.Mn_Pi_ratio Ptloss g
      let ish := argmin (Mc.map fun m => |m - Msh|)
      let M := mapi (fun i a => if ish ≤ i then lib.MachSub_Sigma (a * lib.Sigma_Mach Ms g / n.AsoAc) g
                                else if i ≤ n.ithroat then lib.MachSub_Sigma a n.gamma
                                else lib.MachSup_Sigma a n.gamma) 0 n.AxoAc
      let Pt := mapi (fun i _ => if ish ≤ i then Ptloss else (1 : α)) 0 n.AxoAc
      let Ps := List.zipWith (fun p m => p / lib.PtPs_Mach m g) Pt M
      { n with _M := some M, _Ps := some Ps, _Pt := some Pt }
    else
      let Ps := List.zipWith (fun p m => p / lib.PtPs_Mach m g) Pt0 Mc
      { n with _M := some Mc, _Ps := some Ps, _Pt := some Pt0 }

/-- Embedding of nozzle.__init__ (nozzle.py lines 156-173).  sect is the
section array, AsoAcOpt and NPROpt the optional arguments (Python truthiness:
None and 0 both select the default path), gamma the explicit argument and g
the ambient gamma during construction.  defg.save_default/restore_default do
not change the ambient gamma, so the threshold computation and any set_NPR
call made here run with g. -/
def nozzle.make (lib : GasLib α) (sect : List α) (AsoAcOpt : Option α) (gamma : α)
    (NPROpt : Option α) (g : α) : nozzle α :=
  let AsoAc := if AsoAcOpt.getD 0 ≠ 0 then AsoAcOpt.getD 0 else sect.getLastD 0 / listMin sect
  let AxoAc := sect.map fun s => s * AsoAc / sect.getLastD 0
  let ithroat := argmin (AxoAc.map fun a => |a|)
  let r := _NPR_Ms_list lib AsoAc g
  let base : nozzle α :=
    { gamma := gamma, AsoAc := AsoAc, AxoAc := AxoAc, ithroat := ithroat
      NPR0 := r.1, NPRsw := r.2.1, NPR1 := r.2.2.1
      Msub := r.2.2.2.1, Msh := r.2.2.2.2.1, Msup := r.2.2.2.2.2
      _M := none, _Ps := none, _Pt := none }
  if NPROpt.getD 0 ≠ 0 then base.set_NPR lib (NPROpt.getD 0) g else base

/-- Accessor nozzle.Mach (line 202); none models the AttributeError raised
when set_NPR has never run. -/
def nozzle.Mach (n : nozzle α) : Option (List α) := n._M

/-- Accessor nozzle.Ps (line 205). -/
def nozzle.Ps (n : nozzle α) : Option (List α) := n._Ps

/-- Accessor nozzle.Ptot (line 208). -/
def nozzle.Ptot (n : nozzle α) : Option (List α) := n._Pt

namespace SpecGas

open scoped Classical

/-- Modelled from the spec: the area-Mach relation Sigma of
aerokit.aero.MassFlow (not in the sources), the non-monotonic area ratio as a
function of Mach with minimum 1 at M = 1. -/
noncomputable def Sigma_Mach (M g : ℝ) : ℝ :=
  ((2 + (g - 1) * M ^ 2) / (g + 1)) ^ ((g + 1) / (2 * (g - 1))) / M

/-- Modelled from the spec: the isentropic total-over-static pressure ratio of
aerokit.aero.Isentropic (not in the sources). -/
noncomputable def PtPs_Mach (M g : ℝ) : ℝ := (1 + (g - 1) / 2 * M ^ 2) ^ (g / (g - 1))

/-- Modelled from the spec: downstream Mach of a normal shock with upstream
Mach M, from aerokit.aero.ShockWave (not in the sources). -/
noncomputable def downstream_Mn (M g : ℝ) : ℝ :=
  Real.sqrt ((2 + (g - 1) * M ^ 2) / (2 * g * M ^ 2 - (g - 1)))

/-- Modelled from the spec: static pressure ratio across a normal shock with
upstream Mach M (aerokit.aero.ShockWave, not in the sources). -/
noncomputable def Psratio (M g : ℝ) : ℝ := (2 * g * M ^ 2 - (g - 1)) / (g + 1)

/-- Modelled from the spec: total pressure ratio across a normal shock
(aerokit.aero.ShockWave.Pi_ratio, not in the sources), written as the ratio
chain Pt2/Pt1 = (Pt2/Ps2)(Ps2/Ps1)(Ps1/Pt1). -/
noncomputable def Pi_ratio (M g : ℝ) : ℝ :=
  PtPs_Mach (downstream_Mn M g) g * Psratio M g / PtPs_Mach M g

/-- Modelled from the spec: subsonic branch of the inverse area-Mach relation
(aerokit.aero.MassFlow.MachSub_Sigma, not in the sources): a Mach number in
(0, 1] whose Sigma is the given area ratio. -/
noncomputable def MachSub_Sigma (A g : ℝ) : ℝ :=
  if h : ∃ m, m ∈ Set.Ioc (0 : ℝ) 1 ∧ Sigma_Mach m g = A then h.choose else 1

/-- Modelled from the spec: supersonic branch of the inverse area-Mach
relation (aerokit.aero.MassFlow.MachSup_Sigma, not in the sources). -/
noncomputable def MachSup_Sigma (A g : ℝ) : ℝ :=
  if h : ∃ m, m ∈ Set.Ici (1 : ℝ) ∧ Sigma_Mach m g = A then h.choose else 1

/-- Modelled from the spec: inverse of the isentropic total/static ratio
(aerokit.aero.Isentropic.Mach_PtPs, not in the sources). -/
noncomputable def Mach_PtPs (r g : ℝ) : ℝ :=
  Real.sqrt ((r ^ ((g - 1) / g) - 1) * 2 / (g - 1))

/-- Modelled from the spec: upstream Mach of a normal shock with the given
total pressure ratio (aerokit.aero.ShockWave.Mn_Pi_ratio, not in the
sources). -/
noncomputable def Mn_Pi_ratio (r g : ℝ) : ℝ :=
  if h : ∃ m, m ∈ Set.Ici (1 : ℝ) ∧ Pi_ratio m g = r then h.choose else 1

/-- Modelled from the spec: downstream Mach of a shock of given upstream Mach
and static pressure ratio (aerokit.aero.ShockWave, not in the sources).  No
theorem below depends on this field. -/
noncomputable def downstreamMach_Mach_ShockPsratio (M _r g : ℝ) : ℝ := downstream_Mn M g

/-- Modelled from the spec: the whole external gas-relation library over the
reals, assembled from the relations above and the numpy primitives. -/
noncomputable def lib : GasLib ℝ :=
  { PtPs_Mach := PtPs_Mach
    Mach_PtPs := Mach_PtPs
    Sigma_Mach := Sigma_Mach
    MachSub_Sigma := MachSub_Sigma
    MachSup_Sigma := MachSup_Sigma
    downstream_Mn := downstream_Mn
    Pi_ratio := Pi_ratio
    Mn_Pi_ratio := Mn_Pi_ratio
    downstreamMach_Mach_ShockPsratio := downstreamMach_Mach_ShockPsratio
    sqrt := Real.sqrt
    rpow := fun a b => a ^ b }

end SpecGas

/-- Toy instantiation of the external library over the rationals, used only
to evaluate the branch-level theorems on concrete inputs (the theorems
themselves are parametric in the library). -/
def QLib : GasLib ℚ :=
  { PtPs_Mach := fun m g => m + g
    Mach_PtPs := fun p g => p - g
    Sigma_Mach := fun m _ => m
    MachSub_Sigma := fun s _ => s
    MachSup_Sigma := fun s _ => s + 2
    downstream_Mn := fun m _ => m / 2
    Pi_ratio := fun _ _ => 3 / 4
    Mn_Pi_ratio := fun p _ => p
    downstreamMach_Mach_ShockPsratio := fun m r _ => m + r
    sqrt := fun x => x
    rpow := fun _ _ => 1 }

/-- Toy instantiation of the external library over the reals whose sqrt and
power fields are the genuine numpy primitives; used only to evaluate the
exit-Mach theorem on the concrete doctest input. -/
noncomputable def R0Lib : GasLib ℝ :=
  { PtPs_Mach := fun m _ => m + 1
    Mach_PtPs := fun p _ => p
    Sigma_Mach := fun m _ => m
    MachSub_Sigma := fun _ _ => 0
    MachSup_Sigma := fun _ _ => 1
    downstream_Mn := fun m _ => m
    Pi_ratio := fun _ _ => 1
    Mn_Pi_ratio := fun p _ => p
    downstreamMach_Mach_ShockPsratio := fun m r _ => m + r
    sqrt := Real.sqrt
    rpow := fun a b => a ^ b }

/-- Fixed rational nozzle state used to evaluate the parametric theorems on a
concrete input; its threshold fields are the QLib classifier values for
AsoAc = 2 and ambient gamma 2. -/
def NQ : nozzle ℚ :=
  { gamma := 2, AsoAc := 2, AxoAc := [3, 1, 2], ithroat := 1
    NPR0 := 4, NPRsw := 16 / 3, NPR1 := 6, Msub := 2, Msh := 2, Msup := 4
    _M := none, _Ps := none, _Pt := none }

/-- A list is non-increasing along its index order (used for monotonicity of
the total pressure along the flow direction). -/
def NonIncr (l : List α) : Prop :=
  ∀ i j : ℕ, i ≤ j → j < l.length → l.getD j 0 ≤ l.getD i 0

/-! Helper lemmas about the list utilities. -/

theorem foldl_min_mem (xs : List α) : ∀ x : α, xs.foldl min x ∈ x :: xs := by
  induction xs with
  | nil => intro x; simp
  | cons y ys ih =>
    intro x
    have h := ih (min x y)
    simp only [List.foldl_cons]
    rcases List.mem_cons.1 h with h1 | h1
    · rcases min_choice x y with h2 | h2 <;> rw [h1, h2] <;> simp
    · simp [h1]

theorem foldl_min_le (xs : List α) : ∀ x y : α, y ∈ x :: xs → xs.foldl min x ≤ y := by
  induction xs with
  | nil =>
    intro x y hy
    simp only [List.mem_singleton] at hy
    simp [hy]
  | cons z zs ih =>
    intro x y hy
    simp only [List.foldl_cons]
    rcases List.mem_cons.1 hy with h1 | h1
    · rw [h1]
      exact le_trans (ih (min x z) (min x z) (List.mem_cons_self _ _)) (min_le_left x z)
    rcases List.mem_cons.1 h1 with h2 | h2
    · rw [h2]
      exact le_trans (ih (min x z) (min x z) (List.mem_cons_self _ _)) (min_le_right x z)
    · exact ih (min x z) y (List.mem_cons_of_mem _ h2)

theorem listMin_mem {l : List α} (h : l ≠ []) : listMin l ∈ l := by
  cases l with
  | nil => exact absurd rfl h
  | cons x xs => exact foldl_min_mem xs x

theorem listMin_le {l : List α} {y : α} (hy : y ∈ l) : listMin l ≤ y := by
  cases l with
  | nil => simp at hy
  | cons x xs => exact foldl_min_le xs x y hy

theorem argmin_lt_length {l : List α} (h : l ≠ []) : argmin l < l.length :=
  List.indexOf_lt_length.2 (listMin_mem h)

theorem get_argmin {l : List α} (h : l ≠ []) :
    l.get ⟨argmin l, argmin_lt_length h⟩ = listMin l := List.indexOf_get _

theorem getD_eq_get {l : List α} {i : ℕ} (h : i < l.length) (d : α) :
    l.getD i d = l.get ⟨i, h⟩ := by
  rw [List.getD_eq_getElem?_getD, List.getElem?_eq_getElem h]
  rfl

theorem getD_argmin {l : List α} (h : l ≠ []) : l.getD (argmin l) 0 = listMin l := by
  rw [getD_eq_get (argmin_lt_length h) 0, get_argmin h]

theorem mapi_length {β : Type} (f : ℕ → α → β) : ∀ (k : ℕ) (l : List α),
    (mapi f k l).length = l.length
  | _, [] => rfl
  | k, _ :: xs => by simp [mapi, mapi_length f (k + 1) xs]

theorem mapi_getD {β : Type} (f : ℕ → α → β) (db : β) (da : α) : ∀ (k : ℕ) (l : List α) (i : ℕ),
    i < l.length → (mapi f k l).getD i db = f (k + i) (l.getD i da)
  | _, [], i, h => absurd h (by simp)
  | k, x :: xs, 0, _ => by simp [mapi]
  | k, x :: xs, i + 1, h => by
    have hi : i < xs.length := by simpa using Nat.lt_of_succ_lt_succ h
    simp only [mapi, List.getD_cons_succ]
    rw [mapi_getD f db da (k + 1) xs i hi]
    congr 1
    omega

theorem mapi_getLast? {β : Type} (f : ℕ → α → β) : ∀ (k : ℕ) (l : List α),
    (mapi f k l).getLast? = Option.map (f (k + l.length - 1)) l.getLast?
  | _, [] => rfl
  | k, [x] => by simp [mapi]
  | k, x :: y :: ys => by
    have ih := mapi_getLast? f (k + 1) (y :: ys)
    have harith : k + (x :: y :: ys).length - 1 = k + 1 + (y :: ys).length - 1 := by
      simp only [List.length_cons]
      omega
    have step : (mapi f k (x :: y :: ys)).getLast? = (mapi f (k + 1) (y :: ys)).getLast? := by
      show (f k x :: f (k + 1) y :: mapi f (k + 1 + 1) ys).getLast? = _
      rw [List.getLast?_cons_cons]
      rfl
    rw [step, ih, List.getLast?_cons_cons, harith]

theorem zipWith_getD (f : α → α → α) (d1 d2 d : α) : ∀ (l1 l2 : List α) (i : ℕ),
    i < l1.length → i < l2.length →
    (List.zipWith f l1 l2).getD i d = f (l1.getD i d1) (l2.getD i d2)
  | [], _, i, h1, _ => absurd h1 (by simp)
  | _ :: _, [], i, _, h2 => absurd h2 (by simp)
  | x :: xs, y :: ys, 0, _, _ => by simp
  | x :: xs, y :: ys, i + 1, h1, h2 => by
    simp only [List.zipWith_cons_cons, List.getD_cons_succ]
    exact zipWith_getD f d1 d2 d xs ys i (by simpa using Nat.lt_of_succ_lt_succ h1)
      (by simpa using Nat.lt_of_succ_lt_succ h2)

theorem getD_map (f : α → α) (d1 d : α) : ∀ (l : List α) (i : ℕ),
    i < l.length → (l.map f).getD i d = f (l.getD i d1)
  | [], i, h => absurd h (by simp)
  | x :: xs, 0, _ => by simp
  | x :: xs, i + 1, h => by
    simp only [List.map_cons, List.getD_cons_succ]
    exact getD_map f d1 d xs i (by simpa using Nat.lt_of_succ_lt_succ h)

/-- After any set_NPR call, the three field arrays are present and have the
same length as the stored area-ratio array. -/
theorem set_NPR_lengths (lib : GasLib α) (n : nozzle α) (NPR g : α) :
    ((n.set_NPR lib NPR g)._M.getD []).length = n.AxoAc.length ∧
    ((n.set_NPR lib NPR g)._Ps.getD []).length = n.AxoAc.length ∧
    ((n.set_NPR lib NPR g)._Pt.getD []).length = n.AxoAc.length ∧
    (n.set_NPR lib NPR g)._M.isSome ∧ (n.set_NPR lib NPR g)._Ps.isSome ∧
    (n.set_NPR lib NPR g)._Pt.isSome := by
  by_cases h0 : NPR < n.NPR0
  · simp [nozzle.set_NPR, h0, mapi_length, List.length_zipWith]
  by_cases hsw : NPR < n.NPRsw <;>
    simp [nozzle.set_NPR, h0, hsw, mapi_length, List.length_zipWith]

/-- set_NPR does not touch the stored area-ratio array. -/
theorem set_NPR_AxoAc (lib : GasLib α) (n : nozzle α) (NPR g : α) :
    (n.set_NPR lib NPR g).AxoAc = n.AxoAc := by
  unfold nozzle.set_NPR
  split
  · rfl
  split <;> rfl

/-- set_NPR does not touch the stored throat index. -/
theorem set_NPR_ithroat (lib : GasLib α) (n : nozzle α) (NPR g : α) :
    (n.set_NPR lib NPR g).ithroat = n.ithroat := by
  unfold nozzle.set_NPR
  split
  · rfl
  split <;> rfl

/-- set_NPR does not touch the stored exit area ratio. -/
theorem set_NPR_AsoAc (lib : GasLib α) (n : nozzle α) (NPR g : α) :
    (n.set_NPR lib NPR g).AsoAc = n.AsoAc := by
  unfold nozzle.set_NPR
  split
  · rfl
  split <;> rfl

theorem foldl_min_map (f : α → α) (hf : ∀ a b : α, f (min a b) = min (f a) (f b)) :
    ∀ (xs : List α) (x : α), (xs.map f).foldl min (f x) = f (xs.foldl min x)
  | [], _ => rfl
  | y :: ys, x => by
    simp only [List.map_cons, List.foldl_cons, ← hf]
    exact foldl_min_map f hf ys (min x y)

theorem listMin_map {f : α → α} (hf : Monotone f) {l : List α} (h : l ≠ []) :
    listMin (l.map f) = f (listMin l) := by
  cases l with
  | nil => exact absurd rfl h
  | cons x xs =>
    simp only [List.map_cons, listMin]
    exact foldl_min_map f (fun a b => hf.map_min) xs x

theorem getLastD_mem (d : α) : ∀ (l : List α), l ≠ [] → l.getLastD d ∈ l
  | [x], _ => by simp
  | x :: y :: ys, _ => by
    have h := getLastD_mem x (y :: ys) (by simp)
    simp only [List.getLastD_cons] at h ⊢
    exact List.mem_cons_of_mem _ h

theorem nonincr_const_one (l : List α) : NonIncr (l.map fun _ => (1 : α)) := by
  intro i j hij hj
  rw [List.length_map] at hj
  rw [getD_map _ 0 _ _ j hj, getD_map _ 0 _ _ i (lt_of_le_of_lt hij hj)]

theorem nonincr_shock (c : α) (hc : c ≤ 1) (ish : ℕ) (l : List α) :
    NonIncr (mapi (fun i _ => if ish ≤ i then c else (1 : α)) 0 l) := by
  intro i j hij hj
  rw [mapi_length] at hj
  rw [mapi_getD _ 0 0 0 l j hj, mapi_getD _ 0 0 0 l i (lt_of_le_of_lt hij hj)]
  simp only [Nat.zero_add]
  by_cases hi : ish ≤ i
  · rw [if_pos hi, if_pos (le_trans hi hij)]
  · rw [if_neg hi]
    by_cases hjc : ish ≤ j
    · rw [if_pos hjc]
      exact hc
    · rw [if_neg hjc]

/-! Claim theorems. -/

/-- C3: for every AsAc > 1, the regime classifier _NPR_Ms_list AsAc is a pure
function returning the tuple (NPR0, NPRsw, NPR1, Msub, Msh, Msup) with
Msub = MachSub_Sigma AsAc, NPR0 = PtPs_Mach Msub, Msup = MachSup_Sigma AsAc,
Msh = downstream_Mn Msup, NPRsw = PtPs_Mach Msh / Pi_ratio Msup, and
NPR1 = PtPs_Mach Msup. -/
theorem C3_regime_classifier (lib : GasLib α) (AsAc g : α) (hA : 1 < AsAc) :
    _NPR_Ms_list lib AsAc g =
      (lib.PtPs_Mach (lib.MachSub_Sigma AsAc g) g,
       lib.PtPs_Mach (lib.downstream_Mn (lib.MachSup_Sigma AsAc g) g) g /
         lib.Pi_ratio (lib.MachSup_Sigma AsAc g) g,
       lib.PtPs_Mach (lib.MachSup_Sigma AsAc g) g,
       lib.MachSub_Sigma AsAc g,
       lib.downstream_Mn (lib.MachSup_Sigma AsAc g) g,
       lib.MachSup_Sigma AsAc g) := rfl

/-- Witness for C3 at the concrete input AsAc = 2, g = 2 over the toy
rational library. -/
theorem C3_regime_classifier_witness :
    _NPR_Ms_list QLib 2 2 = (4, 16 / 3, 6, 2, 2, 4) :=
  (C3_regime_classifier QLib 2 2 (by norm_num)).trans (by norm_num [QLib])

/-- C10: a nozzle constructed with NPR = None answers none (AttributeError)
to all three field accessors, and after any set_NPR call the accessors
return freshly computed arrays of the full profile length. -/
theorem C10_accessors_before_after (lib : GasLib α) (sect : List α) (gamma g : α) :
    (nozzle.make lib sect none gamma none g).Mach = none ∧
    (nozzle.make lib sect none gamma none g).Ps = none ∧
    (nozzle.make lib sect none gamma none g).Ptot = none ∧
    (∀ NPR g2,
      (((nozzle.make lib sect none gamma none g).set_NPR lib NPR g2).Mach.getD []).length
          = sect.length ∧
      (((nozzle.make lib sect none gamma none g).set_NPR lib NPR g2).Ps.getD []).length
          = sect.length ∧
      (((nozzle.make lib sect none gamma none g).set_NPR lib NPR g2).Ptot.getD []).length
          = sect.length) := by
  constructor
  · simp [nozzle.make, nozzle.Mach]
  constructor
  · simp [nozzle.make, nozzle.Ps]
  constructor
  · simp [nozzle.make, nozzle.Ptot]
  intro NPR g2
  have hlen : (nozzle.make lib sect none gamma none g).AxoAc.length = sect.length := by
    simp [nozzle.make]
  have h := set_NPR_lengths lib (nozzle.make lib sect none gamma none g) NPR g2
  exact ⟨by rw [nozzle.Mach, h.1, hlen], by rw [nozzle.Ps, h.2.1, hlen],
    by rw [nozzle.Ptot, h.2.2.1, hlen]⟩

/-- C8 (counterexample): the claim that thresholds and fields are independent
of the ambient default-gas gamma is false.  Two constructions identical in
area profile, NPR argument and explicit gamma, differing only in the ambient
gamma, store different NPR0 thresholds: the constructor only saves and
restores the ambient gas state, it never installs the explicit gamma, and
_NPR_Ms_list reads the ambient gamma. -/
theorem C8_counterexample :
    (nozzle.make QLib [3, 1, 2] none (7 / 5) none 1).NPR0 ≠
      (nozzle.make QLib [3, 1, 2] none (7 / 5) none 2).NPR0 := by
  norm_num [nozzle.make, _NPR_Ms_list, QLib, argmin, listMin]

/-- C8 (amended): only the choked shock-free Mach field is independent of
the ambient gamma (lines 187-189 pass gamma=self.gamma explicitly); given the
same stored nozzle state, its value is identical under any two ambient
gammas.  The thresholds and the other regime computations read the ambient
gamma. -/
theorem C8_amended_ambient_independence (lib : GasLib α) (n : nozzle α) (NPR g1 g2 : α)
    (h0 : ¬ NPR < n.NPR0) (hsw : ¬ NPR < n.NPRsw) :
    (n.set_NPR lib NPR g1)._M = (n.set_NPR lib NPR g2)._M := by
  simp only [nozzle.set_NPR, if_neg h0, if_neg hsw]

/-- Witness for the amended C8 at a concrete choked shock-free input. -/
theorem C8_amended_ambient_independence_witness :
    (NQ.set_NPR QLib 7 1)._M = (NQ.set_NPR QLib 7 2)._M :=
  C8_amended_ambient_independence QLib NQ 7 1 2 (by norm_num [NQ]) (by norm_num [NQ])

/-- C2: the regime dispatch of set_NPR.  If NPR < NPR0 every station Mach is
the subsonic inverse of the local area ratio rescaled by Sigma of the exit
Mach implied by inverse-isentropic at NPR; otherwise the candidate field uses
the subsonic branch up to the throat index and the supersonic branch after
it, and it is kept unchanged when NPR is at least NPRsw; in every regime the
static pressure array is elementwise Ptot over PtPs_Mach of the local Mach
(with the gamma each branch of the source passes to that call). -/
theorem C2_set_NPR_regimes (lib : GasLib α) (n : nozzle α) (NPR g : α) (hN : 1 < NPR) :
    (NPR < n.NPR0 →
      (n.set_NPR lib NPR g)._M =
        some (n.AxoAc.map fun a =>
          lib.MachSub_Sigma (a / n.AsoAc * lib.Sigma_Mach (lib.Mach_PtPs NPR n.gamma) g)
            n.gamma)) ∧
    (¬ NPR < n.NPR0 → ¬ NPR < n.NPRsw →
      (n.set_NPR lib NPR g)._M =
        some (mapi (fun i a => if i ≤ n.ithroat then lib.MachSub_Sigma a n.gamma
                               else lib.MachSup_Sigma a n.gamma) 0 n.AxoAc)) ∧
    (∀ i, i < n.AxoAc.length →
      ((n.set_NPR lib NPR g)._Ps.getD []).getD i 0 =
        ((n.set_NPR lib NPR g)._Pt.getD []).getD i 0 /
          lib.PtPs_Mach (((n.set_NPR lib NPR g)._M.getD []).getD i 0)
            (if NPR < n.NPR0 then n.gamma else g)) := by
  refine ⟨fun h0 => ?_, fun h0 hsw => ?_, fun i hi => ?_⟩
  · simp only [nozzle.set_NPR, if_pos h0]
  · simp only [nozzle.set_NPR, if_neg h0, if_neg hsw]
  · by_cases h0 : NPR < n.NPR0
    · simp only [nozzle.set_NPR, if_pos h0, Option.getD_some]
      exact zipWith_getD _ 0 0 0 _ _ i (by simpa using hi) (by simpa using hi)
    by_cases hsw : NPR < n.NPRsw
    · simp only [nozzle.set_NPR, if_neg h0, if_pos hsw, Option.getD_some]
      exact zipWith_getD _ 0 0 0 _ _ i (by simpa [mapi_length] using hi)
        (by simpa [mapi_length] using hi)
    · simp only [nozzle.set_NPR, if_neg h0, if_neg hsw, Option.getD_some]
      exact zipWith_getD _ 0 0 0 _ _ i (by simpa using hi) (by simpa [mapi_length] using hi)

/-- Witness for C2 on the concrete choked shock-free input: nozzle NQ with
NPR = 7 and ambient gamma 2. -/
theorem C2_set_NPR_regimes_witness :
    (NQ.set_NPR QLib 7 2)._M = some [3, 1, 4] :=
  ((C2_set_NPR_regimes QLib NQ 7 2 (by norm_num)).2.1 (by norm_num [NQ])
    (by norm_num [NQ])).trans (by norm_num [NQ, QLib, mapi])

/-- C9 (counterexample): the claim also covers nozzles built with the forced
AsoAc argument, but then AxoAc is the section law scaled by the forced value
and its minimum (the throat entry) is AsoAc_forced / (section[-1]/min section),
not 1: for section [2,1,2] and forced AsoAc 3 the throat entry is 3/2. -/
theorem C9_counterexample :
    (nozzle.make QLib [2, 1, 2] (some 3) (7 / 5) none 1).AxoAc.getD
        (nozzle.make QLib [2, 1, 2] (some 3) (7 / 5) none 1).ithroat 0 ≠ 1 := by
  norm_num [nozzle.make, QLib, _NPR_Ms_list, argmin, listMin, abs_of_nonneg, min_def]

/-- C9 (amended): for a nozzle constructed without the forced AsoAc argument,
from a nonempty positive section law, the stored area-ratio array AxoAc has
value exactly 1 at the stored throat index, and its minimum value is exactly
1. -/
theorem C9_amended (lib : GasLib α) (sect : List α) (gamma : α) (NPROpt : Option α) (g : α)
    (hne : sect ≠ []) (hpos : ∀ x ∈ sect, 0 < x) :
    (nozzle.make lib sect none gamma NPROpt g).AxoAc.getD
        (nozzle.make lib sect none gamma NPROpt g).ithroat 0 = 1 ∧
    listMin (nozzle.make lib sect none gamma NPROpt g).AxoAc = 1 := by
  have hm : 0 < listMin sect := hpos _ (listMin_mem hne)
  have hL : 0 < sect.getLastD 0 := hpos _ (getLastD_mem 0 sect hne)
  have hm0 : listMin sect ≠ 0 := ne_of_gt hm
  have hL0 : sect.getLastD 0 ≠ 0 := ne_of_gt hL
  have hmap : (sect.map fun s => s * (sect.getLastD 0 / listMin sect) / sect.getLastD 0)
      = sect.map fun s => s / listMin sect := by
    refine List.map_congr_left fun a ha => ?_
    rw [mul_div_assoc, div_div, mul_comm (listMin sect) (sect.getLastD 0), ← div_div,
      div_self hL0, one_div, ← div_eq_mul_inv]
  have hcond : ¬ ((none : Option α).getD 0 ≠ 0) := by simp
  have hAx : (nozzle.make lib sect none gamma NPROpt g).AxoAc
      = sect.map fun s => s / listMin sect := by
    by_cases hNo : NPROpt.getD 0 ≠ 0
    · simp only [nozzle.make, if_pos hNo, set_NPR_AxoAc, if_neg hcond]
      exact hmap
    · simp only [nozzle.make, if_neg hNo, if_neg hcond]
      exact hmap
  have hit : (nozzle.make lib sect none gamma NPROpt g).ithroat
      = argmin ((sect.map fun s => s / listMin sect).map fun a => |a|) := by
    by_cases hNo : NPROpt.getD 0 ≠ 0
    · simp only [nozzle.make, if_pos hNo, set_NPR_ithroat, if_neg hcond, hmap]
    · simp only [nozzle.make, if_neg hNo, if_neg hcond, hmap]
  have hposAx : ∀ x ∈ sect.map fun s => s / listMin sect, 0 < x := by
    intro x hx
    obtain ⟨s, hs, rfl⟩ := List.mem_map.1 hx
    exact div_pos (hpos s hs) hm
  have habs : ((sect.map fun s => s / listMin sect).map fun a => |a|)
      = sect.map fun s => s / listMin sect := by
    rw [show (sect.map fun s => s / listMin sect).map (fun a => |a|)
        = (sect.map fun s => s / listMin sect).map id from
      List.map_congr_left fun a ha => abs_of_pos (hposAx a ha), List.map_id]
  have hne2 : (sect.map fun s => s / listMin sect) ≠ [] := by
    cases sect with
    | nil => exact absurd rfl hne
    | cons x xs => simp
  have hmono : Monotone fun s : α => s / listMin sect :=
    fun a b hab => (div_le_div_iff_of_pos_right hm).2 hab
  have hminAx : listMin (sect.map fun s => s / listMin sect) = 1 := by
    rw [listMin_map hmono hne, div_self hm0]
  constructor
  · rw [hAx, hit, habs, getD_argmin hne2, hminAx]
  · rw [hAx, hminAx]

/-- Witness for the amended C9 at the concrete section law [3, 1, 2]. -/
theorem C9_amended_witness :
    (nozzle.make QLib [3, 1, 2] none (7 / 5) none 2).AxoAc.getD
        (nozzle.make QLib [3, 1, 2] none (7 / 5) none 2).ithroat 0 = 1 ∧
    listMin (nozzle.make QLib [3, 1, 2] none (7 / 5) none 2).AxoAc = 1 :=
  C9_amended QLib [3, 1, 2] (7 / 5) none 2 (by simp)
    (by intro x hx; fin_cases hx <;> norm_num)

/-- C6 (counterexample): after set_NPR in the shock regime the stored total
pressure at the throat index need not be 1: the nearest-Mach search can
return a shock index at or before the throat (here ish = 0 with throat index
1), and then Ptot[ithroat] is the loss factor, not 1. -/
theorem C6_counterexample :
    ((((nozzle.make QLib [3, 1, 2] none (7 / 5) none 2).set_NPR QLib 5 2)._Pt.getD []).getD
        (nozzle.make QLib [3, 1, 2] none (7 / 5) none 2).ithroat 0) ≠ 1 := by
  norm_num [nozzle.make, nozzle.set_NPR, QLib, _NPR_Ms_list, Ms_from_AsAc_NPR, mapi,
    argmin, listMin, abs_of_nonneg, abs_of_nonpos, min_def]

/-- C6 (amended): after set_NPR, in the unchoked and the shock-free choked
regimes the total pressure array is all ones, so its throat entry is 1 and it
is non-increasing; in the shock regime the array is 1 before the shock index
ish and the loss factor Ptloss from ish onward, so the throat entry is 1
whenever ithroat < ish, and the array is non-increasing whenever
Ptloss is at most 1. -/
theorem C6_amended (lib : GasLib α) (n : nozzle α) (NPR g : α) (hN : 1 < NPR)
    (hth : n.ithroat < n.AxoAc.length) :
    ((NPR < n.NPR0 ∨ n.NPRsw ≤ NPR) →
      (((n.set_NPR lib NPR g)._Pt.getD []).getD n.ithroat 0 = 1 ∧
        NonIncr ((n.set_NPR lib NPR g)._Pt.getD []))) ∧
    (¬ NPR < n.NPR0 → NPR < n.NPRsw →
      ∃ (ish : ℕ) (Ptloss : α),
        Ptloss = lib.PtPs_Mach (Ms_from_AsAc_NPR lib n.AsoAc NPR g) g / NPR ∧
        ish = argmin ((mapi (fun i a => if i ≤ n.ithroat then lib.MachSub_Sigma a n.gamma
                                        else lib.MachSup_Sigma a n.gamma) 0 n.AxoAc).map
            fun m => |m - lib.Mn_Pi_ratio
              (lib.PtPs_Mach (Ms_from_AsAc_NPR lib n.AsoAc NPR g) g / NPR) g|) ∧
        (n.set_NPR lib NPR g)._Pt
          = some (mapi (fun i _ => if ish ≤ i then Ptloss else (1 : α)) 0 n.AxoAc) ∧
        (n.ithroat < ish → ((n.set_NPR lib NPR g)._Pt.getD []).getD n.ithroat 0 = 1) ∧
        (Ptloss ≤ 1 → NonIncr ((n.set_NPR lib NPR g)._Pt.getD []))) := by
  constructor
  · intro hcase
    by_cases h0 : NPR < n.NPR0
    · simp only [nozzle.set_NPR, if_pos h0, Option.getD_some]
      exact ⟨getD_map _ 0 0 n.AxoAc n.ithroat hth, nonincr_const_one n.AxoAc⟩
    · have hsw : ¬ NPR < n.NPRsw := by
        rcases hcase with hcase | hcase
        · exact absurd hcase h0
        · exact not_lt.2 hcase
      simp only [nozzle.set_NPR, if_neg h0, if_neg hsw, Option.getD_some]
      exact ⟨getD_map _ 0 0 n.AxoAc n.ithroat hth, nonincr_const_one n.AxoAc⟩
  · intro h0 hsw
    refine ⟨_, _, rfl, rfl, ?_, ?_, ?_⟩
    · simp only [nozzle.set_NPR, if_neg h0, if_pos hsw]
    · intro hlt
      simp only [nozzle.set_NPR, if_neg h0, if_pos hsw, Option.getD_some]
      rw [mapi_getD _ 0 0 0 n.AxoAc n.ithroat hth]
      simp only [Nat.zero_add]
      rw [if_neg (by omega)]
    · intro hloss
      simp only [nozzle.set_NPR, if_neg h0, if_pos hsw, Option.getD_some]
      exact nonincr_shock _ hloss _ _

/-- Witness for the amended C6 at the concrete shock-free input NQ, NPR = 7. -/
theorem C6_amended_witness :
    ((NQ.set_NPR QLib 7 2)._Pt.getD []).getD NQ.ithroat 0 = 1 :=
  ((C6_amended QLib NQ 7 2 (by norm_num) (by norm_num [NQ])).1 (Or.inr (by norm_num [NQ]))).1

/-- C4: in the shock regime (NPR0 ≤ NPR < NPRsw), set_NPR computes
Ms by the closed-form solver, Ptloss = PtPs_Mach(Ms)/NPR, the shock upstream
Mach Msh by inverting the shock total-pressure relation on Ptloss, and the
shock index ish as the nearest-value index of Msh in the candidate Mach
array; from ish onward, Mach is overwritten with the subsonic inverse of the
area ratios rescaled by Sigma_Mach(Ms)/AsAc, so that the exit station Mach is
exactly Ms (given the inverse property of the external subsonic pair at Ms),
and Ptot is Ptloss from ish onward and 1 before. -/
theorem C4_shock_placement (lib : GasLib α) (n : nozzle α) (NPR g : α)
    (h0 : ¬ NPR < n.NPR0) (hsw : NPR < n.NPRsw)
    (hne : n.AxoAc ≠ []) (hlast : n.AxoAc.getLastD 0 = n.AsoAc) (hA : n.AsoAc ≠ 0)
    (hinv : lib.MachSub_Sigma
        (lib.Sigma_Mach (Ms_from_AsAc_NPR lib n.AsoAc NPR g) g) g
      = Ms_from_AsAc_NPR lib n.AsoAc NPR g) :
    ∃ ish : ℕ,
      ish = argmin ((mapi (fun i a => if i ≤ n.ithroat then lib.MachSub_Sigma a n.gamma
                                      else lib.MachSup_Sigma a n.gamma) 0 n.AxoAc).map
          fun m => |m - lib.Mn_Pi_ratio
            (lib.PtPs_Mach (Ms_from_AsAc_NPR lib n.AsoAc NPR g) g / NPR) g|) ∧
      (n.set_NPR lib NPR g)._M
        = some (mapi (fun i a =>
            if ish ≤ i then lib.MachSub_Sigma
              (a * lib.Sigma_Mach (Ms_from_AsAc_NPR lib n.AsoAc NPR g) g / n.AsoAc) g
            else if i ≤ n.ithroat then lib.MachSub_Sigma a n.gamma
            else lib.MachSup_Sigma a n.gamma) 0 n.AxoAc) ∧
      ((n.set_NPR lib NPR g)._M.getD []).getLast? = some (Ms_from_AsAc_NPR lib n.AsoAc NPR g) ∧
      (n.set_NPR lib NPR g)._Pt
        = some (mapi (fun i _ =>
            if ish ≤ i then lib.PtPs_Mach (Ms_from_AsAc_NPR lib n.AsoAc NPR g) g / NPR
            else (1 : α)) 0 n.AxoAc) := by
  refine ⟨_, rfl, ?_, ?_, ?_⟩
  · simp only [nozzle.set_NPR, if_neg h0, if_pos hsw]
  · simp only [nozzle.set_NPR, if_neg h0, if_pos hsw, Option.getD_some]
    rw [mapi_getLast? _ 0 n.AxoAc]
    obtain ⟨x, hx⟩ : ∃ x, n.AxoAc.getLast? = some x := by
      cases hgl : n.AxoAc.getLast? with
      | none => exact absurd (List.getLast?_eq_none_iff.1 hgl) hne
      | some y => exact ⟨y, rfl⟩
    have hxA : x = n.AsoAc := by
      rw [← hlast, List.getLastD_eq_getLast?, hx]
      rfl
    rw [hx]
    simp only [Option.map_some']
    have hish : argmin ((mapi (fun i a => if i ≤ n.ithroat then lib.MachSub_Sigma a n.gamma
        else lib.MachSup_Sigma a n.gamma) 0 n.AxoAc).map
          fun m => |m - lib.Mn_Pi_ratio
            (lib.PtPs_Mach (Ms_from_AsAc_NPR lib n.AsoAc NPR g) g / NPR) g|)
        ≤ 0 + n.AxoAc.length - 1 := by
      have hlen := argmin_lt_length (l :=
        (mapi (fun i a => if i ≤ n.ithroat then lib.MachSub_Sigma a n.gamma
          else lib.MachSup_Sigma a n.gamma) 0 n.AxoAc).map
          fun m => |m - lib.Mn_Pi_ratio
            (lib.PtPs_Mach (Ms_from_AsAc_NPR lib n.AsoAc NPR g) g / NPR) g|)
        (by
          cases hc : n.AxoAc with
          | nil => exact absurd hc hne
          | cons y ys => simp [mapi])
      rw [List.length_map, mapi_length] at hlen
      omega
    rw [if_pos hish, hxA, mul_div_cancel_left₀ _ hA, hinv]
  · simp only [nozzle.set_NPR, if_neg h0, if_pos hsw]

/-- Witness for C4 at the concrete nozzle NQ with NPR = 5, ambient gamma 2
(shock regime: NPR0 = 4 ≤ 5 < 16/3 = NPRsw). -/
theorem C4_shock_placement_witness :
    ((NQ.set_NPR QLib 5 2)._M.getD []).getLast? = some (Ms_from_AsAc_NPR QLib NQ.AsoAc 5 2) :=
  (C4_shock_placement QLib NQ 5 2 (by norm_num [NQ]) (by norm_num [NQ])
    (by simp [NQ]) (by norm_num [NQ]) (by norm_num [NQ]) (by norm_num [NQ, QLib])
    ).choose_spec.2.2.1

/-- C7: the four sub-regimes of the pressure-adapted solver, under the
threshold ordering NPR0 ≤ NPRsw ≤ NPR1: below NPR0 it returns the
inverse-isentropic Mach (agreeing with the confined solver), above NPR1 the
inverse-isentropic Mach, on (NPRsw, NPR1] the downstream Mach from upstream
Msup and pressure ratio NPR1/NPR, and on [NPR0, NPRsw] the same closed-form
subsonic root as the confined solver's middle branch. -/
theorem C7_Madapt_regimes (lib : GasLib α) (AsAc NPR g : α) (hA : 1 < AsAc) (hN : 1 < NPR)
    (hord1 : (_NPR_Ms_list lib AsAc g).1 ≤ (_NPR_Ms_list lib AsAc g).2.1)
    (hord2 : (_NPR_Ms_list lib AsAc g).2.1 ≤ (_NPR_Ms_list lib AsAc g).2.2.1) :
    (NPR < (_NPR_Ms_list lib AsAc g).1 →
      Madapt_from_AsAc_NPR lib AsAc NPR g = lib.Mach_PtPs NPR g ∧
      Madapt_from_AsAc_NPR lib AsAc NPR g = Ms_from_AsAc_NPR lib AsAc NPR g) ∧
    ((_NPR_Ms_list lib AsAc g).2.2.1 < NPR →
      Madapt_from_AsAc_NPR lib AsAc NPR g = lib.Mach_PtPs NPR g) ∧
    ((_NPR_Ms_list lib AsAc g).2.1 < NPR → NPR ≤ (_NPR_Ms_list lib AsAc g).2.2.1 →
      Madapt_from_AsAc_NPR lib AsAc NPR g =
        lib.downstreamMach_Mach_ShockPsratio (_NPR_Ms_list lib AsAc g).2.2.2.2.2
          ((_NPR_Ms_list lib AsAc g).2.2.1 / NPR) g) ∧
    ((_NPR_Ms_list lib AsAc g).1 ≤ NPR → NPR ≤ (_NPR_Ms_list lib AsAc g).2.1 →
      Madapt_from_AsAc_NPR lib AsAc NPR g = Ms_from_AsAc_NPR lib AsAc NPR g) := by
  refine ⟨fun h => ⟨?_, ?_⟩, fun h => ?_, fun h1 h2 => ?_, fun h1 h2 => ?_⟩
  · simp only [Madapt_from_AsAc_NPR]
    rw [if_pos h]
  · simp only [Madapt_from_AsAc_NPR, Ms_from_AsAc_NPR]
    rw [if_pos h, if_pos h]
  · simp only [Madapt_from_AsAc_NPR]
    rw [if_neg (not_lt.2 (le_of_lt (lt_of_le_of_lt (le_trans hord1 hord2) h))), if_pos h]
  · simp only [Madapt_from_AsAc_NPR]
    rw [if_neg (not_lt.2 (le_of_lt (lt_of_le_of_lt hord1 h1))), if_neg (not_lt.2 h2),
      if_pos h1]
  · simp only [Madapt_from_AsAc_NPR, Ms_from_AsAc_NPR]
    rw [if_neg (not_lt.2 h1), if_neg (not_lt.2 (le_trans h2 hord2)), if_neg (not_lt.2 h2),
      if_neg (not_lt.2 h1), if_neg (not_lt.2 h2)]

/-- Witness for C7 on the shock-in-jet branch: toy library, AsAc = 2,
NPR = 11/2 (thresholds 4 ≤ 16/3 ≤ 6, and 16/3 < 11/2 ≤ 6). -/
theorem C7_Madapt_regimes_witness :
    Madapt_from_AsAc_NPR QLib 2 (11 / 2) 2 = 56 / 11 :=
  ((C7_Madapt_regimes QLib 2 (11 / 2) 2 (by norm_num) (by norm_num)
      (by norm_num [_NPR_Ms_list, QLib]) (by norm_num [_NPR_Ms_list, QLib])).2.2.1
    (by norm_num [_NPR_Ms_list, QLib]) (by norm_num [_NPR_Ms_list, QLib])).trans
    (by norm_num [_NPR_Ms_list, QLib])

/-- The power appearing in the closed-form branch at gamma = 1.4: the
exponent is exactly 3, so the power is 1.2 cubed. -/
theorem rpow_gamma14 :
    ((((1.4 : ℝ) + 1) / 2) ^ (((1.4 : ℝ) + 1) / (2 * ((1.4 : ℝ) - 1)))) = 216 / 125 := by
  have h1 : (((1.4 : ℝ) + 1) / (2 * ((1.4 : ℝ) - 1))) = ((3 : ℕ) : ℝ) := by norm_num
  rw [h1, Real.rpow_natCast]
  norm_num

/-- Two-sided bound on the nested square root of the doctest case
AsAc = 2.636, NPR = 1.5, gamma = 1.4: the closed-form subsonic root is within
5e-9 of 0.32586574. -/
theorem doctest_value_bounds :
    |Real.sqrt ((Real.sqrt ((611656301 : ℝ) / 562828176) - 1) / (2 / 5)) - 0.32586574|
      < 5e-9 := by
  have h1l : (1042475390904297 / 1000000000000000 : ℝ)
      ≤ Real.sqrt ((611656301 : ℝ) / 562828176) := by
    rw [show (1042475390904297 / 1000000000000000 : ℝ)
        = Real.sqrt ((1042475390904297 / 1000000000000000) ^ 2) from
      (Real.sqrt_sq (by norm_num)).symm]
    exact Real.sqrt_le_sqrt (by norm_num)
  have h1u : Real.sqrt ((611656301 : ℝ) / 562828176)
      ≤ 10424753909042971 / 10000000000000000 := by
    rw [show (10424753909042971 / 10000000000000000 : ℝ)
        = Real.sqrt ((10424753909042971 / 10000000000000000) ^ 2) from
      (Real.sqrt_sq (by norm_num)).symm]
    exact Real.sqrt_le_sqrt (by norm_num)
  set s1 := Real.sqrt ((611656301 : ℝ) / 562828176) with hs1
  have h2l : (0.325865735 : ℝ) < Real.sqrt ((s1 - 1) / (2 / 5)) := by
    rw [show ((s1 - 1) / (2 / 5) : ℝ) = (s1 - 1) * (5 / 2) from by ring]
    refine (Real.lt_sqrt (by norm_num)).2 ?_
    nlinarith [h1l]
  have h2u : Real.sqrt ((s1 - 1) / (2 / 5)) < 0.325865745 := by
    rw [show ((s1 - 1) / (2 / 5) : ℝ) = (s1 - 1) * (5 / 2) from by ring]
    refine (Real.sqrt_lt' (by norm_num)).2 ?_
    nlinarith [h1u]
  rw [abs_sub_lt_iff]
  constructor <;> nlinarith [h2l, h2u]

/-- C1: the confined exit-Mach solver returns the inverse-isentropic Mach
below NPR0, the supersonic-branch Mach Msup above NPRsw, and otherwise the
closed-form subsonic root sqrt((sqrt(1+2(g-1)K^2)-1)/(g-1)) with
K = NPR/AsAc/((g+1)/2)^((g+1)/(2(g-1))); at the doctest input AsAc = 2.636,
NPR = 1.5, gamma = 1.4 (shock-in-diffuser regime) the result rounds to
0.32586574 at 8 decimals. -/
theorem C1_exit_Mach_solver (lib : GasLib ℝ)
    (hs : ∀ x, lib.sqrt x = Real.sqrt x)
    (hr : ∀ x y, lib.rpow x y = x ^ y) :
    (∀ AsAc NPR g : ℝ, 1 < AsAc → 1 < NPR →
      ((NPR < (_NPR_Ms_list lib AsAc g).1 →
          Ms_from_AsAc_NPR lib AsAc NPR g = lib.Mach_PtPs NPR g) ∧
       ((_NPR_Ms_list lib AsAc g).1 ≤ (_NPR_Ms_list lib AsAc g).2.1 →
          (_NPR_Ms_list lib AsAc g).2.1 < NPR →
          Ms_from_AsAc_NPR lib AsAc NPR g = (_NPR_Ms_list lib AsAc g).2.2.2.2.2) ∧
       (¬ NPR < (_NPR_Ms_list lib AsAc g).1 → ¬ (_NPR_Ms_list lib AsAc g).2.1 < NPR →
          Ms_from_AsAc_NPR lib AsAc NPR g =
            Real.sqrt ((Real.sqrt (1 + 2 * (g - 1) *
                (NPR / AsAc / (((g + 1) / 2) ^ ((g + 1) / (2 * (g - 1))))) *
                (NPR / AsAc / (((g + 1) / 2) ^ ((g + 1) / (2 * (g - 1)))))) - 1)
              / (g - 1))))) ∧
    (¬ (1.5 : ℝ) < (_NPR_Ms_list lib 2.636 1.4).1 →
     ¬ (_NPR_Ms_list lib 2.636 1.4).2.1 < 1.5 →
     |Ms_from_AsAc_NPR lib 2.636 1.5 1.4 - 0.32586574| < 5e-9) := by
  have hclosed : ∀ AsAc NPR g : ℝ, ¬ NPR < (_NPR_Ms_list lib AsAc g).1 →
      ¬ (_NPR_Ms_list lib AsAc g).2.1 < NPR →
      Ms_from_AsAc_NPR lib AsAc NPR g =
        Real.sqrt ((Real.sqrt (1 + 2 * (g - 1) *
            (NPR / AsAc / (((g + 1) / 2) ^ ((g + 1) / (2 * (g - 1))))) *
            (NPR / AsAc / (((g + 1) / 2) ^ ((g + 1) / (2 * (g - 1)))))) - 1) / (g - 1)) := by
    intro AsAc NPR g h1 h2
    simp only [Ms_from_AsAc_NPR]
    rw [if_neg h1, if_neg h2, hs, hs, hr,
      show ((g + 1) / 2 / (g - 1) : ℝ) = (g + 1) / (2 * (g - 1)) from div_div _ _ _]
  constructor
  · intro AsAc NPR g hA hN
    refine ⟨fun h => ?_, fun hord h => ?_, fun h1 h2 => hclosed AsAc NPR g h1 h2⟩
    · simp only [Ms_from_AsAc_NPR]
      rw [if_pos h]
    · simp only [Ms_from_AsAc_NPR]
      rw [if_neg (not_lt.2 (le_of_lt (lt_of_le_of_lt hord h))), if_pos h]
  · intro hc1 hc2
    have heq : Ms_from_AsAc_NPR lib 2.636 1.5 1.4
        = Real.sqrt ((Real.sqrt ((611656301 : ℝ) / 562828176) - 1) / (2 / 5)) := by
      rw [hclosed 2.636 1.5 1.4 hc1 hc2, rpow_gamma14]
      norm_num
    rw [heq]
    exact doctest_value_bounds

/-- Witness for C1 at the doctest input over the real toy library whose sqrt
and power are the genuine numpy primitives (its thresholds put 1.5 in the
shock-in-diffuser regime: NPR0 = 1, NPRsw = 2). -/
theorem C1_exit_Mach_solver_witness :
    |Ms_from_AsAc_NPR R0Lib 2.636 1.5 1.4 - 0.32586574| < 5e-9 :=
  (C1_exit_Mach_solver R0Lib (fun x => rfl) (fun x y => rfl)).2
    (by norm_num [_NPR_Ms_list, R0Lib]) (by norm_num [_NPR_Ms_list, R0Lib])

namespace SpecGas

theorem base_pos {g m : ℝ} (hg : 1 < g) : 0 < 2 + (g - 1) * m ^ 2 := by
  nlinarith [sq_nonneg m]

theorem fArea_pos {g m : ℝ} (hg : 1 < g) : 0 < (2 + (g - 1) * m ^ 2) / (g + 1) :=
  div_pos (base_pos hg) (by linarith)

theorem Sigma_pos {g m : ℝ} (hg : 1 < g) (hm : 0 < m) : 0 < Sigma_Mach m g :=
  div_pos (Real.rpow_pos_of_pos (fArea_pos hg) _) hm

theorem Sigma_one {g : ℝ} (hg : 1 < g) : Sigma_Mach 1 g = 1 := by
  have h1 : g + 1 ≠ 0 := by linarith
  unfold Sigma_Mach
  rw [show (2 + (g - 1) * (1 : ℝ) ^ 2) / (g + 1) = 1 by field_simp; ring, Real.one_rpow]
  norm_num

theorem log_Sigma {g m : ℝ} (hg : 1 < g) (hm : 0 < m) :
    Real.log (Sigma_Mach m g)
      = (g + 1) / (2 * (g - 1)) * (Real.log (2 + (g - 1) * m ^ 2) - Real.log (g + 1))
        - Real.log m := by
  unfold Sigma_Mach
  rw [Real.log_div (ne_of_gt (Real.rpow_pos_of_pos (fArea_pos hg) _)) (ne_of_gt hm),
    Real.log_rpow (fArea_pos hg),
    Real.log_div (ne_of_gt (base_pos hg)) (by linarith : (g + 1 : ℝ) ≠ 0)]

theorem PtPs_base_pos {g m : ℝ} (hg : 1 < g) : 0 < 1 + (g - 1) / 2 * m ^ 2 := by
  nlinarith [sq_nonneg m]

theorem PtPs_pos {g m : ℝ} (hg : 1 < g) : 0 < PtPs_Mach m g :=
  Real.rpow_pos_of_pos (PtPs_base_pos hg) _

theorem log_PtPs {g : ℝ} (m : ℝ) (hg : 1 < g) :
    Real.log (PtPs_Mach m g) = g / (g - 1) * Real.log (1 + (g - 1) / 2 * m ^ 2) :=
  Real.log_rpow (PtPs_base_pos hg) _

theorem PtPs_lt_PtPs {g a b : ℝ} (hg : 1 < g) (ha : 0 ≤ a) (hab : a < b) :
    PtPs_Mach a g < PtPs_Mach b g := by
  have hsq : a ^ 2 < b ^ 2 := by nlinarith
  unfold PtPs_Mach
  exact Real.rpow_lt_rpow (le_of_lt (PtPs_base_pos hg)) (by nlinarith)
    (div_pos (by linarith) (by linarith))

theorem psi_pos {g M : ℝ} (hg : 1 < g) (hM : 1 ≤ M) : 0 < 2 * g * M ^ 2 - (g - 1) := by
  have hM2 : 1 ≤ M ^ 2 := by nlinarith
  nlinarith [mul_nonneg (by linarith : (0 : ℝ) ≤ g) (by linarith : (0 : ℝ) ≤ M ^ 2 - 1)]

theorem downstream_pos {g M : ℝ} (hg : 1 < g) (hM : 1 < M) : 0 < downstream_Mn M g :=
  Real.sqrt_pos.2 (div_pos (base_pos hg) (psi_pos hg (le_of_lt hM)))

theorem downstream_sq {g M : ℝ} (hg : 1 < g) (hM : 1 < M) :
    downstream_Mn M g ^ 2 = (2 + (g - 1) * M ^ 2) / (2 * g * M ^ 2 - (g - 1)) := by
  unfold downstream_Mn
  exact Real.sq_sqrt (le_of_lt (div_pos (base_pos hg) (psi_pos hg (le_of_lt hM))))

theorem downstream_lt_one {g M : ℝ} (hg : 1 < g) (hM : 1 < M) : downstream_Mn M g < 1 := by
  unfold downstream_Mn
  apply (Real.sqrt_lt' one_pos).2
  rw [one_pow, div_lt_one (psi_pos hg (le_of_lt hM))]
  have hM2 : 1 < M ^ 2 := by nlinarith
  nlinarith [mul_pos (by linarith : (0 : ℝ) < g + 1) (by linarith : (0 : ℝ) < M ^ 2 - 1)]

theorem Psratio_gt_one {g M : ℝ} (hg : 1 < g) (hM : 1 < M) : 1 < Psratio M g := by
  unfold Psratio
  rw [lt_div_iff₀ (by linarith : (0 : ℝ) < g + 1)]
  have hM2 : 1 < M ^ 2 := by nlinarith
  nlinarith [mul_pos (by linarith : (0 : ℝ) < 2 * g) (by linarith : (0 : ℝ) < M ^ 2 - 1)]

theorem Psratio_pos {g M : ℝ} (hg : 1 < g) (hM : 1 < M) : 0 < Psratio M g :=
  lt_trans one_pos (Psratio_gt_one hg hM)

theorem Pi_pos {g M : ℝ} (hg : 1 < g) (hM : 1 < M) : 0 < Pi_ratio M g :=
  div_pos (mul_pos (PtPs_pos hg) (Psratio_pos hg hM)) (PtPs_pos hg)

theorem MachSub_Sigma_spec {A g : ℝ}
    (hex : ∃ m, m ∈ Set.Ioc (0 : ℝ) 1 ∧ Sigma_Mach m g = A) :
    MachSub_Sigma A g ∈ Set.Ioc (0 : ℝ) 1 ∧ Sigma_Mach (MachSub_Sigma A g) g = A := by
  unfold MachSub_Sigma
  rw [dif_pos hex]
  exact hex.choose_spec

theorem MachSup_Sigma_spec {A g : ℝ}
    (hex : ∃ m, m ∈ Set.Ici (1 : ℝ) ∧ Sigma_Mach m g = A) :
    MachSup_Sigma A g ∈ Set.Ici (1 : ℝ) ∧ Sigma_Mach (MachSup_Sigma A g) g = A := by
  unfold MachSup_Sigma
  rw [dif_pos hex]
  exact hex.choose_spec

end SpecGas

namespace SpecGas

/-- Logarithmic form of Sigma used for monotonicity arguments. -/
theorem Hlog_hasDerivAt {g : ℝ} (hg : 1 < g) {m : ℝ} (hm : 0 < m) :
    HasDerivAt (fun m : ℝ =>
        (g + 1) / (2 * (g - 1)) * (Real.log (2 + (g - 1) * m ^ 2) - Real.log (g + 1))
          - Real.log m)
      ((g + 1) / (2 * (g - 1)) * ((g - 1) * (2 * m ^ 1) / (2 + (g - 1) * m ^ 2)) - m⁻¹) m := by
  have h1 : HasDerivAt (fun m : ℝ => 2 + (g - 1) * m ^ 2) ((g - 1) * (2 * m ^ 1)) m := by
    simpa using ((hasDerivAt_pow 2 m).const_mul (g - 1)).const_add 2
  exact (((h1.log (ne_of_gt (base_pos hg))).sub_const (Real.log (g + 1))).const_mul
    ((g + 1) / (2 * (g - 1)))).sub (Real.hasDerivAt_log (ne_of_gt hm))

theorem Sigma_strictAntiOn {g : ℝ} (hg : 1 < g) :
    StrictAntiOn (fun m => Sigma_Mach m g) (Set.Ioc (0 : ℝ) 1) := by
  have hanti : StrictAntiOn (fun m : ℝ =>
      (g + 1) / (2 * (g - 1)) * (Real.log (2 + (g - 1) * m ^ 2) - Real.log (g + 1))
        - Real.log m) (Set.Ioc (0 : ℝ) 1) := by
    apply strictAntiOn_of_deriv_neg (convex_Ioc 0 1)
    · intro m hm
      exact (Hlog_hasDerivAt hg hm.1).continuousAt.continuousWithinAt
    · intro m hm
      rw [interior_Ioc] at hm
      rw [(Hlog_hasDerivAt hg hm.1).deriv]
      have hm0 : m ≠ 0 := ne_of_gt hm.1
      have hb0 : (2 + (g - 1) * m ^ 2) ≠ 0 := ne_of_gt (base_pos hg)
      have hg0 : g - 1 ≠ 0 := by linarith
      have key : (g + 1) / (2 * (g - 1)) * ((g - 1) * (2 * m ^ 1) / (2 + (g - 1) * m ^ 2))
          - m⁻¹ = (2 * m ^ 2 - 2) / (m * (2 + (g - 1) * m ^ 2)) := by
        field_simp
        ring
      rw [key]
      apply div_neg_of_neg_of_pos
      · nlinarith [hm.2, hm.1]
      · exact mul_pos hm.1 (base_pos hg)
  intro a ha b hb hab
  have h1 := hanti ha hb hab
  have ea : Sigma_Mach a g = Real.exp ((g + 1) / (2 * (g - 1))
      * (Real.log (2 + (g - 1) * a ^ 2) - Real.log (g + 1)) - Real.log a) := by
    rw [← log_Sigma hg ha.1, Real.exp_log (Sigma_pos hg ha.1)]
  have eb : Sigma_Mach b g = Real.exp ((g + 1) / (2 * (g - 1))
      * (Real.log (2 + (g - 1) * b ^ 2) - Real.log (g + 1)) - Real.log b) := by
    rw [← log_Sigma hg hb.1, Real.exp_log (Sigma_pos hg hb.1)]
  show Sigma_Mach b g < Sigma_Mach a g
  rw [ea, eb]
  exact Real.exp_lt_exp.2 h1

end SpecGas

namespace SpecGas

theorem Sigma_continuousOn {g : ℝ} (hg : 1 < g) {s : Set ℝ} (hs : ∀ x ∈ s, 0 < x) :
    ContinuousOn (fun m => Sigma_Mach m g) s := by
  unfold Sigma_Mach
  apply ContinuousOn.div
  · apply ContinuousOn.rpow_const
    · exact ((continuous_const.add
        (continuous_const.mul (continuous_pow 2))).div_const (g + 1)).continuousOn
    · intro x _
      left
      exact ne_of_gt (fArea_pos hg)
  · exact continuousOn_id
  · intro x hx
    exact ne_of_gt (hs x hx)

theorem Sigma_lower_sub {g m : ℝ} (hg : 1 < g) (hm : 0 < m) :
    (2 / (g + 1)) ^ ((g + 1) / (2 * (g - 1))) / m ≤ Sigma_Mach m g := by
  have he : (0 : ℝ) < (g + 1) / (2 * (g - 1)) := div_pos (by linarith) (by linarith)
  have h1 : (2 / (g + 1) : ℝ) ^ ((g + 1) / (2 * (g - 1)))
      ≤ ((2 + (g - 1) * m ^ 2) / (g + 1)) ^ ((g + 1) / (2 * (g - 1))) :=
    Real.rpow_le_rpow (div_nonneg (by norm_num) (by linarith))
      ((div_le_div_iff_of_pos_right (by linarith)).2 (by nlinarith [sq_nonneg m]))
      (le_of_lt he)
  unfold Sigma_Mach
  exact (div_le_div_iff_of_pos_right hm).2 h1

theorem exists_MachSub {A g : ℝ} (hg : 1 < g) (hA : 1 < A) :
    ∃ m, m ∈ Set.Ioc (0 : ℝ) 1 ∧ Sigma_Mach m g = A := by
  have hc : 0 < (2 / (g + 1) : ℝ) ^ ((g + 1) / (2 * (g - 1))) :=
    Real.rpow_pos_of_pos (div_pos two_pos (by linarith)) _
  set c := (2 / (g + 1) : ℝ) ^ ((g + 1) / (2 * (g - 1))) with hcdef
  set m0 := min (1 / 2 : ℝ) (c / A) with hm0def
  have hApos : (0 : ℝ) < A := lt_trans one_pos hA
  have hm0pos : 0 < m0 := lt_min (by norm_num) (div_pos hc hApos)
  have hm0le1 : m0 ≤ 1 := le_trans (min_le_left _ _) (by norm_num)
  have hS0 : A ≤ Sigma_Mach m0 g := by
    have hlow := Sigma_lower_sub (m := m0) hg hm0pos
    rw [← hcdef] at hlow
    have hchain : A ≤ c / m0 := by
      rcases le_or_lt (c / A) (1 / 2) with hcase | hcase
      · rw [hm0def, min_eq_right hcase, div_div_eq_mul_div, mul_comm, mul_div_assoc,
          div_self (ne_of_gt hc), mul_one]
      · rw [hm0def, min_eq_left (le_of_lt hcase)]
        have h2c : (1 / 2) * A < c := (lt_div_iff₀ hApos).1 hcase
        rw [show (c / (1 / 2 : ℝ)) = 2 * c by ring]
        linarith
    exact le_trans hchain hlow
  have hcont : ContinuousOn (fun m => Sigma_Mach m g) (Set.Icc m0 1) :=
    Sigma_continuousOn hg (fun x hx => lt_of_lt_of_le hm0pos hx.1)
  have hsub := intermediate_value_Icc' hm0le1 hcont
  have hmem : A ∈ Set.Icc (Sigma_Mach 1 g) (Sigma_Mach m0 g) := by
    rw [Sigma_one hg]
    exact ⟨le_of_lt hA, hS0⟩
  obtain ⟨m, hm, hSm⟩ := hsub hmem
  exact ⟨m, ⟨lt_of_lt_of_le hm0pos hm.1, hm.2⟩, hSm⟩

theorem Sigma_lower_sup {g m : ℝ} (hg : 1 < g) (hm : 1 ≤ m) :
    ((g - 1) / (g + 1)) ^ ((g + 1) / (2 * (g - 1)))
        * m ^ (2 * ((g + 1) / (2 * (g - 1))) - 1) ≤ Sigma_Mach m g := by
  have hm0 : (0 : ℝ) < m := lt_of_lt_of_le one_pos hm
  have he : (0 : ℝ) < (g + 1) / (2 * (g - 1)) := div_pos (by linarith) (by linarith)
  have h1 : ((g - 1) * m ^ 2 / (g + 1) : ℝ) ^ ((g + 1) / (2 * (g - 1)))
      ≤ ((2 + (g - 1) * m ^ 2) / (g + 1)) ^ ((g + 1) / (2 * (g - 1))) :=
    Real.rpow_le_rpow (div_nonneg (mul_nonneg (by linarith) (sq_nonneg m)) (by linarith))
      ((div_le_div_iff_of_pos_right (by linarith)).2 (by nlinarith)) (le_of_lt he)
  have h2 : ((g - 1) * m ^ 2 / (g + 1) : ℝ) ^ ((g + 1) / (2 * (g - 1)))
      = ((g - 1) / (g + 1)) ^ ((g + 1) / (2 * (g - 1)))
          * m ^ (2 * ((g + 1) / (2 * (g - 1)))) := by
    rw [show ((g - 1) * m ^ 2 / (g + 1) : ℝ) = ((g - 1) / (g + 1)) * m ^ 2 by ring,
      Real.mul_rpow (div_nonneg (by linarith) (by linarith)) (sq_nonneg m),
      ← Real.rpow_natCast m 2, ← Real.rpow_mul (le_of_lt hm0)]
    norm_num
  unfold Sigma_Mach
  rw [Real.rpow_sub hm0, Real.rpow_one, ← mul_div_assoc]
  refine (div_le_div_iff_of_pos_right hm0).2 ?_
  rw [← h2]
  exact h1

theorem exists_MachSup {A g : ℝ} (hg : 1 < g) (hA : 1 < A) :
    ∃ m, m ∈ Set.Ici (1 : ℝ) ∧ Sigma_Mach m g = A := by
  have hg1 : (0 : ℝ) < g - 1 := by linarith
  have hc2 : 0 < ((g - 1) / (g + 1) : ℝ) ^ ((g + 1) / (2 * (g - 1))) :=
    Real.rpow_pos_of_pos (div_pos hg1 (by linarith)) _
  set c2 := ((g - 1) / (g + 1) : ℝ) ^ ((g + 1) / (2 * (g - 1))) with hc2def
  have h2e1 : (0 : ℝ) < 2 * ((g + 1) / (2 * (g - 1))) - 1 := by
    rw [show 2 * ((g + 1) / (2 * (g - 1))) - 1 = 2 / (g - 1) by field_simp; ring]
    positivity
  have hAc2 : 0 < A / c2 := div_pos (by linarith) hc2
  set B := max 2 ((A / c2) ^ (1 / (2 * ((g + 1) / (2 * (g - 1))) - 1))) with hBdef
  have hB1 : (1 : ℝ) ≤ B := le_trans one_le_two (le_max_left _ _)
  have hBpow : A / c2 ≤ B ^ (2 * ((g + 1) / (2 * (g - 1))) - 1) := by
    have hr : (A / c2) ^ (1 / (2 * ((g + 1) / (2 * (g - 1))) - 1)) ≤ B := le_max_right _ _
    calc A / c2
        = ((A / c2) ^ (1 / (2 * ((g + 1) / (2 * (g - 1))) - 1)))
            ^ (2 * ((g + 1) / (2 * (g - 1))) - 1) := by
          rw [← Real.rpow_mul (le_of_lt hAc2), one_div_mul_cancel (ne_of_gt h2e1),
            Real.rpow_one]
      _ ≤ B ^ (2 * ((g + 1) / (2 * (g - 1))) - 1) :=
          Real.rpow_le_rpow (Real.rpow_nonneg (le_of_lt hAc2) _) hr (le_of_lt h2e1)
  have hSB : A ≤ Sigma_Mach B g := by
    have hlow := Sigma_lower_sup (m := B) hg hB1
    rw [← hc2def] at hlow
    have hchain : A ≤ c2 * B ^ (2 * ((g + 1) / (2 * (g - 1))) - 1) := by
      calc A = c2 * (A / c2) := by field_simp
        _ ≤ c2 * B ^ (2 * ((g + 1) / (2 * (g - 1))) - 1) :=
            mul_le_mul_of_nonneg_left hBpow (le_of_lt hc2)
    exact le_trans hchain hlow
  have hcont : ContinuousOn (fun m => Sigma_Mach m g) (Set.Icc 1 B) :=
    Sigma_continuousOn hg (fun x hx => lt_of_lt_of_le one_pos hx.1)
  have hsub := intermediate_value_Icc hB1 hcont
  have hmem : A ∈ Set.Icc (Sigma_Mach 1 g) (Sigma_Mach B g) := by
    rw [Sigma_one hg]
    exact ⟨le_of_lt hA, hSB⟩
  obtain ⟨m, hm, hSm⟩ := hsub hmem
  exact ⟨m, hm.1, hSm⟩

end SpecGas

namespace SpecGas

theorem log_Pi {g M : ℝ} (hg : 1 < g) (hM : 1 < M) :
    Real.log (Pi_ratio M g)
      = g / (g - 1) * (2 * Real.log (g + 1) + Real.log (M ^ 2)
          - Real.log (2 * g * M ^ 2 - (g - 1)) - Real.log (2 + (g - 1) * M ^ 2))
        + Real.log (2 * g * M ^ 2 - (g - 1)) - Real.log (g + 1) := by
  have hψ := psi_pos hg (le_of_lt hM)
  have hM0 : (0 : ℝ) < M := lt_trans one_pos hM
  have hP2 := PtPs_pos (g := g) (m := downstream_Mn M g) hg
  have hP1 := PtPs_pos (g := g) (m := M) hg
  have hPsr := Psratio_pos hg hM
  unfold Pi_ratio
  rw [Real.log_div (ne_of_gt (mul_pos hP2 hPsr)) (ne_of_gt hP1),
    Real.log_mul (ne_of_gt hP2) (ne_of_gt hPsr), log_PtPs _ hg, log_PtPs _ hg]
  unfold Psratio
  rw [Real.log_div (ne_of_gt hψ) (by linarith : (g + 1 : ℝ) ≠ 0), downstream_sq hg hM]
  have hf2 : 1 + (g - 1) / 2 * ((2 + (g - 1) * M ^ 2) / (2 * g * M ^ 2 - (g - 1)))
      = (g + 1) ^ 2 * M ^ 2 / (2 * (2 * g * M ^ 2 - (g - 1))) := by
    field_simp
    ring
  have hf1 : 1 + (g - 1) / 2 * M ^ 2 = (2 + (g - 1) * M ^ 2) / 2 := by ring
  rw [hf2, hf1,
    Real.log_div (ne_of_gt (mul_pos (pow_pos (by linarith) 2) (pow_pos hM0 2)))
      (ne_of_gt (mul_pos two_pos hψ)),
    Real.log_mul (ne_of_gt (pow_pos (by linarith : (0:ℝ) < g + 1) 2))
      (ne_of_gt (pow_pos hM0 2)),
    Real.log_mul (two_ne_zero) (ne_of_gt hψ),
    Real.log_div (ne_of_gt (base_pos hg)) (two_ne_zero),
    Real.log_pow]
  push_cast
  ring

theorem Pi_lt_one {g M : ℝ} (hg : 1 < g) (hM : 1 < M) : Pi_ratio M g < 1 := by
  have hψ1 : ∀ t : ℝ, 1 ≤ t → (0 : ℝ) < 2 * g * t - (g - 1) := fun t ht => by nlinarith
  have hu1 : ∀ t : ℝ, 0 ≤ t → (0 : ℝ) < 2 + (g - 1) * t := fun t ht => by nlinarith
  have hderiv : ∀ t : ℝ, 1 ≤ t → HasDerivAt (fun t : ℝ =>
      g / (g - 1) * (2 * Real.log (g + 1) + Real.log t - Real.log (2 * g * t - (g - 1))
        - Real.log (2 + (g - 1) * t)) + Real.log (2 * g * t - (g - 1)) - Real.log (g + 1))
      (g / (g - 1) * (t⁻¹ - 2 * g / (2 * g * t - (g - 1)) - (g - 1) / (2 + (g - 1) * t))
        + 2 * g / (2 * g * t - (g - 1))) t := by
    intro t ht
    have ht0 : (0 : ℝ) < t := lt_of_lt_of_le one_pos ht
    have ha : HasDerivAt (fun t : ℝ => 2 * g * t - (g - 1)) (2 * g) t := by
      simpa using ((hasDerivAt_id t).const_mul (2 * g)).sub_const (g - 1)
    have hb : HasDerivAt (fun t : ℝ => 2 + (g - 1) * t) (g - 1) t := by
      simpa using ((hasDerivAt_id t).const_mul (g - 1)).const_add 2
    have hla := ha.log (ne_of_gt (hψ1 t ht))
    have hlb := hb.log (ne_of_gt (hu1 t (le_of_lt ht0)))
    have hlt := Real.hasDerivAt_log (ne_of_gt ht0)
    have h1 := (((hlt.const_add (2 * Real.log (g + 1))).sub hla).sub hlb).const_mul
      (g / (g - 1))
    have h2 := (h1.add hla).sub_const (Real.log (g + 1))
    exact h2
  have key : ∀ t : ℝ, 1 < t →
      g / (g - 1) * (t⁻¹ - 2 * g / (2 * g * t - (g - 1)) - (g - 1) / (2 + (g - 1) * t))
        + 2 * g / (2 * g * t - (g - 1))
      = -(2 * g * (t - 1) ^ 2) / (t * (2 * g * t - (g - 1)) * (2 + (g - 1) * t)) := by
    intro t ht
    have h1 : (2 * g * t - (g - 1)) ≠ 0 := ne_of_gt (hψ1 t (le_of_lt ht))
    have h2 : (2 + (g - 1) * t) ≠ 0 := ne_of_gt (hu1 t (by linarith))
    have h3 : t ≠ 0 := ne_of_gt (by linarith)
    have h4 : g - 1 ≠ 0 := by linarith
    field_simp
    ring
  have hanti : StrictAntiOn (fun t : ℝ =>
      g / (g - 1) * (2 * Real.log (g + 1) + Real.log t - Real.log (2 * g * t - (g - 1))
        - Real.log (2 + (g - 1) * t)) + Real.log (2 * g * t - (g - 1)) - Real.log (g + 1))
      (Set.Ici (1 : ℝ)) := by
    apply strictAntiOn_of_deriv_neg (convex_Ici 1)
    · intro t ht
      exact (hderiv t ht).continuousAt.continuousWithinAt
    · intro t ht
      rw [interior_Ici] at ht
      have ht1 : (1 : ℝ) < t := ht
      rw [(hderiv t (le_of_lt ht1)).deriv, key t ht1]
      apply div_neg_of_neg_of_pos
      · have hpos : (0 : ℝ) < 2 * g * (t - 1) ^ 2 :=
          mul_pos (by linarith) (pow_pos (by linarith) 2)
        linarith
      · exact mul_pos (mul_pos (by linarith : (0 : ℝ) < t) (hψ1 t (le_of_lt ht1)))
          (hu1 t (by linarith))
  have hMM : 1 < M ^ 2 := by nlinarith
  have hlt := hanti (Set.mem_Ici.2 (le_refl 1)) (Set.mem_Ici.2 (le_of_lt hMM)) hMM
  have hlt2 : g / (g - 1) * (2 * Real.log (g + 1) + Real.log (M ^ 2)
        - Real.log (2 * g * M ^ 2 - (g - 1)) - Real.log (2 + (g - 1) * M ^ 2))
      + Real.log (2 * g * M ^ 2 - (g - 1)) - Real.log (g + 1)
      < g / (g - 1) * (2 * Real.log (g + 1) + Real.log 1 - Real.log (2 * g * 1 - (g - 1))
        - Real.log (2 + (g - 1) * 1)) + Real.log (2 * g * 1 - (g - 1)) - Real.log (g + 1) :=
    hlt
  have hz : g / (g - 1) * (2 * Real.log (g + 1) + Real.log 1 - Real.log (2 * g * 1 - (g - 1))
      - Real.log (2 + (g - 1) * 1)) + Real.log (2 * g * 1 - (g - 1)) - Real.log (g + 1)
      = 0 := by
    rw [show 2 * g * (1 : ℝ) - (g - 1) = g + 1 by ring,
      show 2 + (g - 1) * (1 : ℝ) = g + 1 by ring, Real.log_one]
    ring
  refine (Real.log_neg_iff (Pi_pos hg hM)).1 ?_
  rw [log_Pi hg hM]
  linarith [hlt2, hz]

theorem Sigma_downstream_eq {g M : ℝ} (hg : 1 < g) (hM : 1 < M) :
    Sigma_Mach (downstream_Mn M g) g = Sigma_Mach M g * Pi_ratio M g := by
  have hM0 : (0 : ℝ) < M := lt_trans one_pos hM
  have hM2pos := downstream_pos hg hM
  have hψ := psi_pos hg (le_of_lt hM)
  have hL : 0 < Sigma_Mach (downstream_Mn M g) g := Sigma_pos hg hM2pos
  have hR : 0 < Sigma_Mach M g * Pi_ratio M g :=
    mul_pos (Sigma_pos hg hM0) (Pi_pos hg hM)
  apply Real.log_injOn_pos (Set.mem_Ioi.2 hL) (Set.mem_Ioi.2 hR)
  rw [Real.log_mul (ne_of_gt (Sigma_pos hg hM0)) (ne_of_gt (Pi_pos hg hM)),
    log_Sigma hg hM2pos, log_Sigma hg hM0, log_Pi hg hM]
  have hsq : 2 + (g - 1) * downstream_Mn M g ^ 2
      = (g + 1) ^ 2 * M ^ 2 / (2 * g * M ^ 2 - (g - 1)) := by
    rw [downstream_sq hg hM]
    field_simp
    ring
  rw [hsq]
  have hlog1 : Real.log ((g + 1) ^ 2 * M ^ 2 / (2 * g * M ^ 2 - (g - 1)))
      = 2 * Real.log (g + 1) + Real.log (M ^ 2) - Real.log (2 * g * M ^ 2 - (g - 1)) := by
    rw [Real.log_div
        (ne_of_gt (mul_pos (pow_pos (by linarith : (0:ℝ) < g + 1) 2) (pow_pos hM0 2)))
        (ne_of_gt hψ),
      Real.log_mul (ne_of_gt (pow_pos (by linarith : (0:ℝ) < g + 1) 2))
        (ne_of_gt (pow_pos hM0 2)),
      Real.log_pow]
    push_cast
    ring
  have hlogM2 : Real.log (downstream_Mn M g)
      = (Real.log (2 + (g - 1) * M ^ 2) - Real.log (2 * g * M ^ 2 - (g - 1))) / 2 := by
    unfold downstream_Mn
    rw [Real.log_sqrt (le_of_lt (div_pos (base_pos hg) hψ)),
      Real.log_div (ne_of_gt (base_pos hg)) (ne_of_gt hψ)]
  rw [hlog1, hlogM2, Real.log_pow]
  push_cast
  have h4 : g - 1 ≠ 0 := by linarith
  field_simp
  ring

end SpecGas

/-- C5: for every AsAc > 1 and gamma in (1, 2], the three thresholds returned
by the regime classifier over the spec-modelled gas relations satisfy
NPR0 < NPRsw < NPR1 strictly. -/
theorem C5_threshold_ordering (AsAc g : ℝ) (hA : 1 < AsAc) (hg1 : 1 < g) (hg2 : g ≤ 2) :
    (_NPR_Ms_list SpecGas.lib AsAc g).1 < (_NPR_Ms_list SpecGas.lib AsAc g).2.1 ∧
    (_NPR_Ms_list SpecGas.lib AsAc g).2.1 < (_NPR_Ms_list SpecGas.lib AsAc g).2.2.1 := by
  obtain ⟨hsub_mem, hsub_eq⟩ :=
    SpecGas.MachSub_Sigma_spec (SpecGas.exists_MachSub hg1 hA)
  obtain ⟨hsup_mem, hsup_eq⟩ :=
    SpecGas.MachSup_Sigma_spec (SpecGas.exists_MachSup hg1 hA)
  have hmsub1 : SpecGas.MachSub_Sigma AsAc g < 1 := by
    rcases lt_or_eq_of_le hsub_mem.2 with h | h
    · exact h
    · rw [h, SpecGas.Sigma_one hg1] at hsub_eq
      exact absurd hsub_eq.symm (ne_of_gt hA)
  have hmsup1 : 1 < SpecGas.MachSup_Sigma AsAc g := by
    rcases lt_or_eq_of_le (Set.mem_Ici.1 hsup_mem) with h | h
    · exact h
    · rw [← h, SpecGas.Sigma_one hg1] at hsup_eq
      exact absurd hsup_eq.symm (ne_of_gt hA)
  have hm2mem : SpecGas.downstream_Mn (SpecGas.MachSup_Sigma AsAc g) g ∈ Set.Ioc (0 : ℝ) 1 :=
    ⟨SpecGas.downstream_pos hg1 hmsup1, le_of_lt (SpecGas.downstream_lt_one hg1 hmsup1)⟩
  have hPi1 := SpecGas.Pi_lt_one hg1 hmsup1
  have hPipos := SpecGas.Pi_pos hg1 hmsup1
  have hSig2lt : SpecGas.Sigma_Mach (SpecGas.downstream_Mn (SpecGas.MachSup_Sigma AsAc g) g) g
      < AsAc := by
    rw [SpecGas.Sigma_downstream_eq hg1 hmsup1, hsup_eq]
    exact mul_lt_of_lt_one_right (by linarith) hPi1
  have hmlt : SpecGas.MachSub_Sigma AsAc g
      < SpecGas.downstream_Mn (SpecGas.MachSup_Sigma AsAc g) g := by
    by_contra hle
    push_neg at hle
    rcases lt_or_eq_of_le hle with hlt | heq
    · have h1 := SpecGas.Sigma_strictAntiOn hg1 hm2mem hsub_mem hlt
      simp only at h1
      rw [hsub_eq] at h1
      linarith
    · rw [heq, hsub_eq] at hSig2lt
      exact absurd hSig2lt (lt_irrefl _)
  have hP2 : SpecGas.PtPs_Mach (SpecGas.MachSub_Sigma AsAc g) g
      < SpecGas.PtPs_Mach (SpecGas.downstream_Mn (SpecGas.MachSup_Sigma AsAc g) g) g :=
    SpecGas.PtPs_lt_PtPs hg1 (le_of_lt hsub_mem.1) hmlt
  have hPiform : SpecGas.PtPs_Mach (SpecGas.downstream_Mn (SpecGas.MachSup_Sigma AsAc g) g) g
        / SpecGas.Pi_ratio (SpecGas.MachSup_Sigma AsAc g) g
      = SpecGas.PtPs_Mach (SpecGas.MachSup_Sigma AsAc g) g
        / SpecGas.Psratio (SpecGas.MachSup_Sigma AsAc g) g := by
    unfold SpecGas.Pi_ratio
    have h1 := ne_of_gt (SpecGas.PtPs_pos
      (g := g) (m := SpecGas.downstream_Mn (SpecGas.MachSup_Sigma AsAc g) g) hg1)
    have h2 := ne_of_gt (SpecGas.PtPs_pos (g := g) (m := SpecGas.MachSup_Sigma AsAc g) hg1)
    have h3 := ne_of_gt (SpecGas.Psratio_pos hg1 hmsup1)
    field_simp
    ring
  constructor
  · show SpecGas.lib.PtPs_Mach (SpecGas.lib.MachSub_Sigma AsAc g) g
        < SpecGas.lib.PtPs_Mach (SpecGas.lib.downstream_Mn (SpecGas.lib.MachSup_Sigma AsAc g) g) g
          / SpecGas.lib.Pi_ratio (SpecGas.lib.MachSup_Sigma AsAc g) g
    simp only [SpecGas.lib]
    calc SpecGas.PtPs_Mach (SpecGas.MachSub_Sigma AsAc g) g
        < SpecGas.PtPs_Mach (SpecGas.downstream_Mn (SpecGas.MachSup_Sigma AsAc g) g) g := hP2
      _ < SpecGas.PtPs_Mach (SpecGas.downstream_Mn (SpecGas.MachSup_Sigma AsAc g) g) g
            / SpecGas.Pi_ratio (SpecGas.MachSup_Sigma AsAc g) g := by
          rw [lt_div_iff₀ hPipos]
          have hp := SpecGas.PtPs_pos
            (g := g) (m := SpecGas.downstream_Mn (SpecGas.MachSup_Sigma AsAc g) g) hg1
          nlinarith
  · show SpecGas.lib.PtPs_Mach (SpecGas.lib.downstream_Mn (SpecGas.lib.MachSup_Sigma AsAc g) g) g
          / SpecGas.lib.Pi_ratio (SpecGas.lib.MachSup_Sigma AsAc g) g
        < SpecGas.lib.PtPs_Mach (SpecGas.lib.MachSup_Sigma AsAc g) g
    simp only [SpecGas.lib]
    rw [hPiform]
    exact div_lt_self (SpecGas.PtPs_pos hg1) (SpecGas.Psratio_gt_one hg1 hmsup1)

/-- Witness for C5 at the concrete input AsAc = 2, gamma = 1.4. -/
theorem C5_threshold_ordering_witness :
    (_NPR_Ms_list SpecGas.lib 2 (7 / 5)).1 < (_NPR_Ms_list SpecGas.lib 2 (7 / 5)).2.1 ∧
    (_NPR_Ms_list SpecGas.lib 2 (7 / 5)).2.1 < (_NPR_Ms_list SpecGas.lib 2 (7 / 5)).2.2.1 :=
  C5_threshold_ordering 2 (7 / 5) (by norm_num) (by norm_num) (by norm_num)
